import Mathlib

/-
Verification of the networking layer of the peer-to-peer chat repository.

The definitions below are a shallow embedding of the Python sources:
  - src/network/communication.py : PeerDiscovery.listen_for_peers,
    WebSocketServer.handle_client, WebSocketServer.handle_file_chunk,
    WebSocketServer.complete_file_transfer
  - src/network/file_transfer.py : FileTransfer.run, FileTransfer.cancel_transfer
  - src/main.py : MainWindow.listen_to_peer, MainWindow.send_message_to_peer

Python dicts are embedded as association lists with insert-or-overwrite
semantics (`dinsert` / `dlookup` below); byte strings are `List Nat`.
-/

namespace P2P

/-- Bytes of a file or of a chunk.  `base64.b64encode` on the sending side and
`base64.b64decode` on the receiving side cancel out, so chunk payloads are
modelled as the raw bytes. -/
abbrev Bytes := List Nat

/-! ### Python `dict` as an association list -/

/-- `m[k]` lookup of a Python dict: first entry with the given key. -/
def dlookup {κ α : Type} [DecidableEq κ] : List (κ × α) → κ → Option α
  | [], _ => none
  | p :: m, k => if p.1 = k then some p.2 else dlookup m k

/-- `k in m` membership test of a Python dict. -/
def dmem {κ α : Type} [DecidableEq κ] (m : List (κ × α)) (k : κ) : Bool :=
  (dlookup m k).isSome

/-- `m[k] = v` of a Python dict: overwrite the entry if the key is present,
append a fresh entry otherwise. -/
def dinsert {κ α : Type} [DecidableEq κ] (m : List (κ × α)) (k : κ) (v : α) :
    List (κ × α) :=
  if dmem m k then m.map (fun p => if p.1 = k then (k, v) else p) else m ++ [(k, v)]

theorem dlookup_append {κ α : Type} [DecidableEq κ]
    (m l : List (κ × α)) (k : κ) :
    dlookup (m ++ l) k =
      match dlookup m k with
      | some v => some v
      | none => dlookup l k := by
  induction m with
  | nil => simp [dlookup]
  | cons p m ih =>
    by_cases hp : p.1 = k
    · simp [dlookup, hp]
    · simp [dlookup, hp, ih]

theorem dlookup_overwrite_self {κ α : Type} [DecidableEq κ]
    (m : List (κ × α)) (k : κ) (v : α) (h : dmem m k = true) :
    dlookup (m.map (fun p => if p.1 = k then (k, v) else p)) k = some v := by
  induction m with
  | nil => simp [dmem, dlookup] at h
  | cons p m ih =>
    by_cases hp : p.1 = k
    · simp [dlookup, hp]
    · have h' : dmem m k = true := by simpa [dmem, dlookup, hp] using h
      simp [dlookup, hp, ih h']

theorem dlookup_overwrite_ne {κ α : Type} [DecidableEq κ]
    (m : List (κ × α)) (k k' : κ) (v : α) (h : k' ≠ k) :
    dlookup (m.map (fun p => if p.1 = k then (k, v) else p)) k' = dlookup m k' := by
  induction m with
  | nil => simp
  | cons p m ih =>
    by_cases hp : p.1 = k
    · have h1 : ¬ k = k' := fun he => h he.symm
      have h2 : ¬ p.1 = k' := by rw [hp]; exact h1
      simp [dlookup, hp, h1, h2, ih]
    · by_cases hp' : p.1 = k'
      · simp [dlookup, hp, hp', h]
      · simp [dlookup, hp, hp', ih]

theorem dlookup_dinsert_self {κ α : Type} [DecidableEq κ]
    (m : List (κ × α)) (k : κ) (v : α) : dlookup (dinsert m k v) k = some v := by
  by_cases h : dmem m k
  · simp [dinsert, h, dlookup_overwrite_self m k v h]
  · have h0 : dlookup m k = none := by
      simpa [dmem, Option.isSome_iff_ne_none] using h
    simp [dinsert, h, dlookup_append, h0, dlookup]

theorem dlookup_dinsert_ne {κ α : Type} [DecidableEq κ]
    (m : List (κ × α)) (k k' : κ) (v : α) (h : k' ≠ k) :
    dlookup (dinsert m k v) k' = dlookup m k' := by
  by_cases hm : dmem m k
  · simp [dinsert, hm, dlookup_overwrite_ne m k k' v h]
  · simp only [dinsert, hm, Bool.false_eq_true, if_false, dlookup_append]
    have h2 : ¬ k = k' := fun he => h he.symm
    cases hl : dlookup m k' with
    | some v' => simp
    | none => simp [dlookup, h2]

theorem length_dinsert_mem {κ α : Type} [DecidableEq κ]
    (m : List (κ × α)) (k : κ) (v : α) (h : dmem m k = true) :
    (dinsert m k v).length = m.length := by
  simp [dinsert, h]

theorem length_dinsert_new {κ α : Type} [DecidableEq κ]
    (m : List (κ × α)) (k : κ) (v : α) (h : dmem m k = false) :
    (dinsert m k v).length = m.length + 1 := by
  simp [dinsert, h]

/-- Keys of the dict, in insertion order. -/
def dkeys {κ α : Type} (m : List (κ × α)) : List κ := m.map Prod.fst

theorem dmem_iff_mem_dkeys {κ α : Type} [DecidableEq κ]
    (m : List (κ × α)) (k : κ) : dmem m k = true ↔ k ∈ dkeys m := by
  induction m with
  | nil => simp [dmem, dlookup, dkeys]
  | cons p m ih =>
    by_cases hp : p.1 = k
    · simp [dmem, dlookup, dkeys, hp]
    · simp only [dmem, dlookup, hp, if_false, dkeys, List.map_cons, List.mem_cons]
      rw [← dkeys, ← dmem]
      constructor
      · intro h; exact Or.inr (ih.mp h)
      · intro h
        rcases h with h | h
        · exact absurd h.symm hp
        · exact ih.mpr h

theorem dlookup_mem {κ α : Type} [DecidableEq κ]
    (m : List (κ × α)) (k : κ) (v : α) (h : dlookup m k = some v) : (k, v) ∈ m := by
  induction m with
  | nil => simp [dlookup] at h
  | cons p m ih =>
    by_cases hp : p.1 = k
    · simp only [dlookup, hp, if_true, Option.some.injEq] at h
      have hpv : p = (k, v) := by
        cases p with
        | mk a b => simp_all
      rw [← hpv]
      exact List.mem_cons_self _ _
    · simp only [dlookup, hp, if_false] at h
      exact List.mem_cons_of_mem _ (ih h)

theorem dmem_eq_false_iff {κ α : Type} [DecidableEq κ]
    (m : List (κ × α)) (k : κ) : dmem m k = false ↔ dlookup m k = none := by
  simp [dmem, Option.isSome_iff_ne_none]

theorem dkeys_dinsert_mem {κ α : Type} [DecidableEq κ]
    (m : List (κ × α)) (k : κ) (v : α) (h : dmem m k = true) :
    dkeys (dinsert m k v) = dkeys m := by
  simp only [dinsert, h, if_true, dkeys, List.map_map]
  apply List.map_congr_left
  intro p _
  by_cases hp : p.1 = k <;> simp [hp]

theorem dkeys_dinsert_new {κ α : Type} [DecidableEq κ]
    (m : List (κ × α)) (k : κ) (v : α) (h : dmem m k = false) :
    dkeys (dinsert m k v) = dkeys m ++ [k] := by
  simp [dinsert, h, dkeys]

theorem dmem_dinsert_self {κ α : Type} [DecidableEq κ]
    (m : List (κ × α)) (k : κ) (v : α) : dmem (dinsert m k v) k = true := by
  simp [dmem, dlookup_dinsert_self]

theorem dmem_dinsert_of_dmem {κ α : Type} [DecidableEq κ]
    (m : List (κ × α)) (k k' : κ) (v : α) (h : dmem m k' = true) :
    dmem (dinsert m k v) k' = true := by
  by_cases hk : k' = k
  · subst hk; exact dmem_dinsert_self m k' v
  · simpa [dmem, dlookup_dinsert_ne m k k' v hk] using h

theorem dmem_dinsert_elim {κ α : Type} [DecidableEq κ]
    (m : List (κ × α)) (k k' : κ) (v : α) (h : dmem (dinsert m k v) k' = true) :
    k' = k ∨ dmem m k' = true := by
  by_cases hk : k' = k
  · exact Or.inl hk
  · right
    simpa [dmem, dlookup_dinsert_ne m k k' v hk] using h

/-! ### Peer discovery listener
Embedding of `PeerDiscovery.listen_for_peers` (src/network/communication.py,
lines 82-106).  A datagram already parsed from JSON carries the fields read by
the loop body: the source address `addr[0]`, `peer_info['type']`,
`peer_info['username']` and `peer_info.get('uuid', 'unknown')` (a datagram
without a `uuid` field is represented with `duuid = "unknown"`). -/

structure Datagram where
  src_ip : String
  dtype : String
  username : String
  duuid : String
deriving DecidableEq

structure PeerInfo where
  username : String
  puuid : String
deriving DecidableEq

/-- A `peer_found` signal emission: `(ip, username, uuid)`. -/
abbrev PeerFoundEvent := String × String × String

/-- One pass of the body of the listen loop (communication.py lines 88-101):
returns the updated `discovered_peers` dict and the `peer_found` emissions of
this pass (empty or a single event). -/
def listenStep (current_user_uuid : String) (discovered_peers : List (String × PeerInfo))
    (d : Datagram) : List (String × PeerInfo) × List PeerFoundEvent :=
  if d.dtype = "peer_announcement" then
    if d.duuid ≠ current_user_uuid then
      if dmem discovered_peers d.src_ip = false then
        (dinsert discovered_peers d.src_ip ⟨d.username, d.duuid⟩,
         [(d.src_ip, d.username, d.duuid)])
      else
        -- already known: `self.discovered_peers[ip].update({...})`, no emission
        (dinsert discovered_peers d.src_ip ⟨d.username, d.duuid⟩, [])
    else
      (discovered_peers, [])   -- "Ignored self-announcement"
  else
    (discovered_peers, [])

/-- The listen loop over a finite sequence of received announcement datagrams,
accumulating the `peer_found` emissions in order. -/
def listen_for_peers (current_user_uuid : String)
    (discovered_peers : List (String × PeerInfo)) :
    List Datagram → List (String × PeerInfo) × List PeerFoundEvent
  | [] => (discovered_peers, [])
  | d :: rest =>
    let (peers1, evs) := listenStep current_user_uuid discovered_peers d
    let (peersF, evsF) := listen_for_peers current_user_uuid peers1 rest
    (peersF, evs ++ evsF)

theorem listenStep_uuid_ne_self (u : String) (peers : List (String × PeerInfo))
    (d : Datagram) (ev : PeerFoundEvent)
    (h : ev ∈ (listenStep u peers d).2) : ev.2.2 ≠ u := by
  unfold listenStep at h
  by_cases h1 : d.dtype = "peer_announcement"
  case neg => rw [if_neg h1] at h; simp at h
  rw [if_pos h1] at h
  by_cases h2 : d.duuid ≠ u
  case neg => rw [if_neg h2] at h; simp at h
  rw [if_pos h2] at h
  by_cases h3 : dmem peers d.src_ip = false
  · rw [if_pos h3] at h
    simp only [List.mem_singleton] at h
    subst h
    exact h2
  · rw [if_neg h3] at h
    simp at h

/-- C3: the discovery listener never emits a PeerFound event for a
peer_announcement whose uuid field equals the local instance's UUID — every
`peer_found` emission of a run of the listen loop carries a uuid different
from the local uuid, for any uuid value, any starting registry and any
received datagram sequence (self-suppression, communication.py line 93). -/
theorem listen_for_peers_never_self (u : String) (peers : List (String × PeerInfo))
    (ds : List Datagram) (ev : PeerFoundEvent)
    (h : ev ∈ (listen_for_peers u peers ds).2) : ev.2.2 ≠ u := by
  induction ds generalizing peers with
  | nil => simp [listen_for_peers] at h
  | cons d rest ih =>
    simp only [listen_for_peers, List.mem_append] at h
    rcases h with h | h
    · exact listenStep_uuid_ne_self u peers d ev h
    · exact ih _ h

/-- After a step on an already-known source address, the address stays known
and no event is emitted. -/
theorem listenStep_known (u : String) (peers : List (String × PeerInfo))
    (d : Datagram) (hm : dmem peers d.src_ip = true)
    (h1 : d.dtype = "peer_announcement") (h2 : d.duuid ≠ u) :
    (listenStep u peers d).2 = [] ∧
      dmem (listenStep u peers d).1 d.src_ip = true := by
  have h3 : ¬ dmem peers d.src_ip = false := by simp [hm]
  constructor
  · simp [listenStep, h1, h2, h3]
  · simp [listenStep, h1, h2, h3, dmem_dinsert_self]

/-- Tail of the single-address discovery argument: once the address is known,
announcements from it emit nothing. -/
theorem listen_known_silent (u ip uu : String) (ds : List Datagram)
    (hds : ∀ d ∈ ds, d.src_ip = ip ∧ d.dtype = "peer_announcement" ∧ d.duuid = uu)
    (hu : uu ≠ u) :
    ∀ peers, dmem peers ip = true → (listen_for_peers u peers ds).2 = [] := by
  induction ds with
  | nil => intro peers _; simp [listen_for_peers]
  | cons d rest ih =>
    intro peers hm
    obtain ⟨hip, hty, huu⟩ := hds d (List.mem_cons_self _ _)
    have h2 : d.duuid ≠ u := by rw [huu]; exact hu
    have hmd : dmem peers d.src_ip = true := by rw [hip]; exact hm
    obtain ⟨hev, hm'⟩ := listenStep_known u peers d hmd hty h2
    simp only [listen_for_peers, hev, List.nil_append]
    have hm'' : dmem (listenStep u peers d).1 ip = true := by rw [← hip]; exact hm'
    exact ih (fun x hx => hds x (List.mem_cons_of_mem _ hx)) _ hm''

/-! ### File-chunk receiver
Embedding of `WebSocketServer.handle_file_chunk` and
`WebSocketServer.complete_file_transfer` (src/network/communication.py,
lines 151-205).  `active_transfers` is a Python dict keyed by `transfer_id`;
the handler only ever reads and writes the entry at the incoming message's
`transfer_id`, entries at distinct ids are independent, so the state is
modelled as the entry at one fixed `transfer_id`: `none` corresponds to
`transfer_id not in self.active_transfers`. -/

/-- The fields of a `file_chunk` envelope read by both sides
(file_transfer.py line 58-66, communication.py line 154-158). -/
structure ChunkMsg where
  transfer_id : String
  chunk_data : Bytes
  chunk_index : Nat
  total_chunks : Nat
  file_size : Nat
  filename : String
deriving DecidableEq

/-- The per-transfer record created on the first chunk of an unseen
`transfer_id` (communication.py lines 161-168). -/
structure TransferRec where
  filename : String
  sender_ip : String
  chunks : List (Nat × Bytes)
  total_chunks : Nat
  file_size : Nat
deriving DecidableEq

/-- The bytes written by `complete_file_transfer` (communication.py lines
190-194): `for i in range(transfer['total_chunks']): if i in transfer['chunks']:
f.write(transfer['chunks'][i])`. -/
def assembleFile (t : TransferRec) : Bytes :=
  (List.range t.total_chunks).foldl
    (fun acc i =>
      match dlookup t.chunks i with
      | some d => acc ++ d
      | none => acc)
    []

/-- "Initialize transfer if first chunk" (communication.py lines 161-168):
the record for `transfer_id`, created from the incoming message when absent. -/
def initRec (client_ip : String) (st : Option TransferRec) (msg : ChunkMsg) :
    TransferRec :=
  match st with
  | none =>
    { filename := msg.filename, sender_ip := client_ip, chunks := [],
      total_chunks := msg.total_chunks, file_size := msg.file_size }
  | some t0 => t0

/-- "Store chunk" (communication.py line 171):
`self.active_transfers[transfer_id]['chunks'][chunk_index] = chunk_data`. -/
def storeRec (client_ip : String) (st : Option TransferRec) (msg : ChunkMsg) :
    TransferRec :=
  { initRec client_ip st msg with
    chunks := dinsert (initRec client_ip st msg).chunks msg.chunk_index msg.chunk_data }

/-- One call of `handle_file_chunk` for the modelled `transfer_id`: returns
the updated entry and, when the transfer completed, the `(filename, bytes)`
written to the downloads directory.  The completion check (line 174) compares
the stored chunk count against the incoming message's `total_chunks` field;
on completion `complete_file_transfer` assembles, emits and deletes the
record (`none`). -/
def handle_file_chunk (client_ip : String) (st : Option TransferRec)
    (msg : ChunkMsg) : Option TransferRec × Option (String × Bytes) :=
  if (storeRec client_ip st msg).chunks.length = msg.total_chunks then
    (none, some ((storeRec client_ip st msg).filename,
                 assembleFile (storeRec client_ip st msg)))
  else
    (some (storeRec client_ip st msg), none)

/-- Feeding a sequence of chunk messages from one client into the handler,
collecting the files written, in order. -/
def ingest (client_ip : String) (st : Option TransferRec) :
    List ChunkMsg → Option TransferRec × List (String × Bytes)
  | [] => (st, [])
  | msg :: rest =>
    let (st1, out) := handle_file_chunk client_ip st msg
    let (stF, outs) := ingest client_ip st1 rest
    (stF, out.toList ++ outs)

/-- The canonical chunk message of index `i` for a transfer of `N` chunks with
contents `c`. -/
def mkChunkMsg (tid fname : String) (fsize N : Nat) (c : Nat → Bytes) (i : Nat) :
    ChunkMsg :=
  { transfer_id := tid, chunk_data := c i, chunk_index := i,
    total_chunks := N, file_size := fsize, filename := fname }

/-! ### Invariants of chunk reassembly -/

/-- A chunk map built from in-range deliveries of the chunk contents `c`:
distinct keys (a Python dict), all indices in range, each index holding its
chunk's bytes. -/
def GoodMap (N : Nat) (c : Nat → Bytes) (m : List (Nat × Bytes)) : Prop :=
  (dkeys m).Nodup ∧ ∀ p ∈ m, p.1 < N ∧ p.2 = c p.1

theorem mem_dinsert_elim {κ α : Type} [DecidableEq κ]
    (m : List (κ × α)) (k : κ) (v : α) (p : κ × α) (h : p ∈ dinsert m k v) :
    p = (k, v) ∨ p ∈ m := by
  unfold dinsert at h
  by_cases hm : dmem m k
  · rw [if_pos hm] at h
    obtain ⟨q, hq, hqe⟩ := List.mem_map.mp h
    by_cases hqk : q.1 = k
    · left; rw [← hqe]; simp [hqk]
    · right; rw [← hqe]; simp only [hqk, if_false]; exact hq
  · rw [if_neg hm] at h
    rcases List.mem_append.mp h with h | h
    · right; exact h
    · left; simpa using h

theorem GoodMap_nil (N : Nat) (c : Nat → Bytes) : GoodMap N c [] := by
  constructor
  · simp [dkeys]
  · simp

theorem GoodMap_dinsert (N : Nat) (c : Nat → Bytes) (m : List (Nat × Bytes))
    (i : Nat) (hg : GoodMap N c m) (hi : i < N) :
    GoodMap N c (dinsert m i (c i)) := by
  obtain ⟨hnd, hent⟩ := hg
  constructor
  · by_cases hm : dmem m i
    · rw [dkeys_dinsert_mem m i _ hm]; exact hnd
    · rw [dkeys_dinsert_new m i _ (by simpa using hm)]
      rw [List.nodup_append]
      refine ⟨hnd, List.nodup_singleton _, ?_⟩
      intro a ha hai
      simp only [List.mem_singleton] at hai
      subst hai
      exact hm ((dmem_iff_mem_dkeys m a).mpr ha)
  · intro p hp
    rcases mem_dinsert_elim m i (c i) p hp with h | h
    · subst h; exact ⟨hi, rfl⟩
    · exact hent p h

/-- Pigeonhole: a good chunk map with `N` entries holds every index
`0..N-1`. -/
theorem GoodMap_full_lookup (N : Nat) (c : Nat → Bytes) (m : List (Nat × Bytes))
    (hg : GoodMap N c m) (hlen : m.length = N) :
    ∀ i < N, dlookup m i = some (c i) := by
  obtain ⟨hnd, hent⟩ := hg
  have hkeylen : (dkeys m).length = N := by simp [dkeys, hlen]
  have hsub : (dkeys m).toFinset ⊆ Finset.range N := by
    intro x hx
    rw [List.mem_toFinset] at hx
    rw [Finset.mem_range]
    obtain ⟨p, hp, hpx⟩ := List.mem_map.mp hx
    exact hpx ▸ (hent p hp).1
  have hcard : (dkeys m).toFinset.card = N := by
    rw [List.toFinset_card_of_nodup hnd, hkeylen]
  have heq : (dkeys m).toFinset = Finset.range N :=
    Finset.eq_of_subset_of_card_le hsub (by rw [hcard, Finset.card_range])
  intro i hi
  have hik : i ∈ dkeys m := by
    rw [← List.mem_toFinset, heq, Finset.mem_range]; exact hi
  have hm : dmem m i = true := (dmem_iff_mem_dkeys m i).mpr hik
  obtain ⟨v, hv⟩ := Option.isSome_iff_exists.mp hm
  have hvc : v = c i := (hent _ (dlookup_mem m i v hv)).2
  rw [hv, hvc]

theorem assembleFold (m : List (Nat × Bytes)) (c : Nat → Bytes) (n : Nat)
    (h : ∀ i < n, dlookup m i = some (c i)) (acc : Bytes) :
    (List.range n).foldl
      (fun acc i => match dlookup m i with | some d => acc ++ d | none => acc) acc
      = acc ++ ((List.range n).map c).flatten := by
  induction n generalizing acc with
  | zero => simp
  | succ n ih =>
    rw [List.range_succ, List.foldl_append, List.map_append, List.flatten_append]
    rw [ih (fun i hi => h i (Nat.lt_succ_of_lt hi)) acc]
    simp [h n (Nat.lt_succ_self n), List.append_assoc]

/-- A full good chunk map assembles to the ascending-index concatenation. -/
theorem assembleFile_eq_join (t : TransferRec) (c : Nat → Bytes)
    (h : ∀ i < t.total_chunks, dlookup t.chunks i = some (c i)) :
    assembleFile t = ((List.range t.total_chunks).map c).flatten := by
  unfold assembleFile
  rw [assembleFold t.chunks c t.total_chunks h []]
  simp

/-- The target file: chunks written in ascending index order. -/
def orderedFile (N : Nat) (c : Nat → Bytes) : Bytes :=
  ((List.range N).map c).flatten

/-- Invariant of the receiving state while delivering the chunks of one
transfer with uniform `total_chunks = N`, contents `c` and filename
`fname`. -/
def GoodState (N : Nat) (c : Nat → Bytes) (fname : String) :
    Option TransferRec → Prop
  | none => True
  | some t => t.total_chunks = N ∧ t.filename = fname ∧
      GoodMap N c t.chunks ∧ t.chunks.length ≠ N

theorem storeRec_mk (client tid fname : String) (fsize N : Nat) (c : Nat → Bytes)
    (st : Option TransferRec) (i : Nat) (hst : GoodState N c fname st) :
    (storeRec client st (mkChunkMsg tid fname fsize N c i)).chunks
        = dinsert (initRec client st (mkChunkMsg tid fname fsize N c i)).chunks i (c i) ∧
    (storeRec client st (mkChunkMsg tid fname fsize N c i)).total_chunks = N ∧
    (storeRec client st (mkChunkMsg tid fname fsize N c i)).filename = fname ∧
    GoodMap N c (initRec client st (mkChunkMsg tid fname fsize N c i)).chunks := by
  cases st with
  | none => exact ⟨rfl, rfl, rfl, GoodMap_nil N c⟩
  | some t0 =>
    obtain ⟨h1, h2, h3, _⟩ := hst
    exact ⟨rfl, h1, h2, h3⟩

/-- One handler call on a good state: the state stays good and any completed
file is the ascending-order assembly. -/
theorem handle_mk_step (client tid fname : String) (fsize N : Nat) (c : Nat → Bytes)
    (st : Option TransferRec) (i : Nat) (hi : i < N) (hst : GoodState N c fname st) :
    GoodState N c fname (handle_file_chunk client st (mkChunkMsg tid fname fsize N c i)).1 ∧
    ((handle_file_chunk client st (mkChunkMsg tid fname fsize N c i)).2 = none ∨
      (handle_file_chunk client st (mkChunkMsg tid fname fsize N c i)).2
        = some (fname, orderedFile N c)) := by
  obtain ⟨hchunks, htot, hfn, hgood0⟩ :=
    storeRec_mk client tid fname fsize N c st i hst
  have hgood : GoodMap N c (storeRec client st (mkChunkMsg tid fname fsize N c i)).chunks := by
    rw [hchunks]
    exact GoodMap_dinsert N c _ i hgood0 hi
  unfold handle_file_chunk
  by_cases hlen :
      (storeRec client st (mkChunkMsg tid fname fsize N c i)).chunks.length
        = (mkChunkMsg tid fname fsize N c i).total_chunks
  · rw [if_pos hlen]
    refine ⟨trivial, Or.inr ?_⟩
    have hfull : ∀ j < N,
        dlookup (storeRec client st (mkChunkMsg tid fname fsize N c i)).chunks j
          = some (c j) :=
      GoodMap_full_lookup N c _ hgood hlen
    have hasm : assembleFile (storeRec client st (mkChunkMsg tid fname fsize N c i))
        = orderedFile N c := by
      rw [assembleFile_eq_join _ c (by rw [htot]; exact hfull), htot]
      rfl
    simp [hfn, hasm]
  · rw [if_neg hlen]
    exact ⟨⟨htot, hfn, hgood, hlen⟩, Or.inl rfl⟩

/-- Every file the handler writes during a uniform in-range delivery sequence
is the ascending-order file, and the state invariant is preserved. -/
theorem ingest_good (client tid fname : String) (fsize N : Nat) (c : Nat → Bytes)
    (ds : List Nat) (hds : ∀ i ∈ ds, i < N) :
    ∀ st, GoodState N c fname st →
      GoodState N c fname (ingest client st (ds.map (mkChunkMsg tid fname fsize N c))).1 ∧
      ∀ o ∈ (ingest client st (ds.map (mkChunkMsg tid fname fsize N c))).2,
        o = (fname, orderedFile N c) := by
  induction ds with
  | nil =>
    intro st hst
    exact ⟨hst, by simp [ingest]⟩
  | cons i rest ih =>
    intro st hst
    have hi : i < N := hds i (List.mem_cons_self _ _)
    obtain ⟨hst', hout⟩ := handle_mk_step client tid fname fsize N c st i hi hst
    obtain ⟨hstF, houts⟩ :=
      ih (fun x hx => hds x (List.mem_cons_of_mem _ hx)) _ hst'
    constructor
    · simpa [ingest] using hstF
    · intro o ho
      simp only [List.map_cons, ingest, List.mem_append] at ho
      rcases ho with ho | ho
      · rcases hout with h | h
        · rw [h] at ho; simp at ho
        · rw [h] at ho
          simpa using ho
      · exact houts o ho

/-- If a handler call produces no file, the updated entry is the stored
record. -/
theorem handle_no_output (client : String) (st : Option TransferRec) (msg : ChunkMsg)
    (h : (handle_file_chunk client st msg).2 = none) :
    (handle_file_chunk client st msg).1 = some (storeRec client st msg) := by
  unfold handle_file_chunk at h ⊢
  by_cases hlen : (storeRec client st msg).chunks.length = msg.total_chunks
  · rw [if_pos hlen] at h; simp at h
  · rw [if_neg hlen]

/-- If no file is ever written, every stored chunk index stays stored. -/
theorem ingest_no_output_preserve (client : String) (msgs : List ChunkMsg) :
    ∀ t : TransferRec, (ingest client (some t) msgs).2 = [] →
      ∀ i, dmem t.chunks i = true →
        ∃ t', (ingest client (some t) msgs).1 = some t' ∧ dmem t'.chunks i = true := by
  induction msgs with
  | nil =>
    intro t _ i hi
    exact ⟨t, rfl, hi⟩
  | cons msg rest ih =>
    intro t hout i hi
    have hsplit : (ingest client (some t) (msg :: rest)).2
        = (handle_file_chunk client (some t) msg).2.toList
          ++ (ingest client (handle_file_chunk client (some t) msg).1 rest).2 := by
      simp [ingest]
    rw [hsplit] at hout
    have h2 : (handle_file_chunk client (some t) msg).2 = none := by
      cases h : (handle_file_chunk client (some t) msg).2 with
      | none => rfl
      | some o => rw [h] at hout; simp at hout
    have h1 := handle_no_output client (some t) msg h2
    have hrest : (ingest client (some t) (msg :: rest)).1
        = (ingest client (handle_file_chunk client (some t) msg).1 rest).1 := by
      simp [ingest]
    rw [h1] at hout hrest
    have hmem : dmem (storeRec client (some t) msg).chunks i = true := by
      have : (storeRec client (some t) msg).chunks
          = dinsert t.chunks msg.chunk_index msg.chunk_data := rfl
      rw [this]
      exact dmem_dinsert_of_dmem _ _ _ _ hi
    obtain ⟨t', ht1, ht2⟩ := ih (storeRec client (some t) msg)
      ((by simpa using hout : _ ∧ _).2) i hmem
    exact ⟨t', by rw [hrest]; exact ht1, ht2⟩

/-- If no file is ever written, every delivered index is stored at the end. -/
theorem ingest_no_output_mem (client tid fname : String) (fsize N : Nat)
    (c : Nat → Bytes) (ds : List Nat) :
    ∀ st, (ingest client st (ds.map (mkChunkMsg tid fname fsize N c))).2 = [] →
      ∀ i ∈ ds, ∃ t',
        (ingest client st (ds.map (mkChunkMsg tid fname fsize N c))).1 = some t' ∧
        dmem t'.chunks i = true := by
  induction ds with
  | nil =>
    intro st _ i hi
    simp at hi
  | cons j rest ih =>
    intro st hout i hi
    have hsplit : (ingest client st ((j :: rest).map (mkChunkMsg tid fname fsize N c))).2
        = (handle_file_chunk client st (mkChunkMsg tid fname fsize N c j)).2.toList
          ++ (ingest client (handle_file_chunk client st (mkChunkMsg tid fname fsize N c j)).1
              (rest.map (mkChunkMsg tid fname fsize N c))).2 := by
      simp [ingest]
    rw [hsplit] at hout
    have h2 : (handle_file_chunk client st (mkChunkMsg tid fname fsize N c j)).2 = none := by
      cases h : (handle_file_chunk client st (mkChunkMsg tid fname fsize N c j)).2 with
      | none => rfl
      | some o => rw [h] at hout; simp at hout
    have h1 := handle_no_output client st (mkChunkMsg tid fname fsize N c j) h2
    have hrest : (ingest client st ((j :: rest).map (mkChunkMsg tid fname fsize N c))).1
        = (ingest client (handle_file_chunk client st (mkChunkMsg tid fname fsize N c j)).1
            (rest.map (mkChunkMsg tid fname fsize N c))).1 := by
      simp [ingest]
    rw [h1] at hout hrest
    have houtrest : (ingest client (some (storeRec client st (mkChunkMsg tid fname fsize N c j)))
        (rest.map (mkChunkMsg tid fname fsize N c))).2 = [] :=
      ((by simpa using hout : _ ∧ _).2)
    rcases List.mem_cons.mp hi with hij | hir
    · subst hij
      have hmem : dmem (storeRec client st (mkChunkMsg tid fname fsize N c i)).chunks i = true := by
        have : (storeRec client st (mkChunkMsg tid fname fsize N c i)).chunks
            = dinsert (initRec client st (mkChunkMsg tid fname fsize N c i)).chunks i (c i) := rfl
        rw [this]
        exact dmem_dinsert_self _ _ _
      obtain ⟨t', ht1, ht2⟩ := ingest_no_output_preserve client
        (rest.map (mkChunkMsg tid fname fsize N c)) _ houtrest i hmem
      exact ⟨t', by rw [hrest]; exact ht1, ht2⟩
    · obtain ⟨t', ht1, ht2⟩ := ih _ houtrest i hir
      exact ⟨t', by rw [hrest]; exact ht1, ht2⟩

/-- A good chunk map has at most `N` entries. -/
theorem GoodMap_length_le (N : Nat) (c : Nat → Bytes) (m : List (Nat × Bytes))
    (hg : GoodMap N c m) : m.length ≤ N := by
  obtain ⟨hnd, hent⟩ := hg
  have hkeylen : (dkeys m).length = m.length := by simp [dkeys]
  have hsub : (dkeys m).toFinset ⊆ Finset.range N := by
    intro x hx
    rw [List.mem_toFinset] at hx
    rw [Finset.mem_range]
    obtain ⟨p, hp, hpx⟩ := List.mem_map.mp hx
    exact hpx ▸ (hent p hp).1
  have := Finset.card_le_card hsub
  rw [List.toFinset_card_of_nodup hnd, hkeylen, Finset.card_range] at this
  exact this

/-- Delivering a uniform in-range sequence that covers every index writes at
least one file. -/
theorem ingest_covering_output (client tid fname : String) (fsize N : Nat)
    (c : Nat → Bytes) (ds : List Nat) (hds : ∀ i ∈ ds, i < N)
    (hcov : ∀ i < N, i ∈ ds) (hN : 0 < N) :
    (ingest client none (ds.map (mkChunkMsg tid fname fsize N c))).2 ≠ [] := by
  intro hout
  obtain ⟨t', ht1, _⟩ := ingest_no_output_mem client tid fname fsize N c ds none hout
    0 (hcov 0 hN)
  obtain ⟨hstF, _⟩ := ingest_good client tid fname fsize N c ds hds none trivial
  rw [ht1] at hstF
  obtain ⟨_, _, hgood, hne⟩ := hstF
  apply hne
  -- every index 0..N-1 is a key of t', keys are distinct and < N
  have hmemall : ∀ i < N, i ∈ dkeys t'.chunks := by
    intro i hi
    obtain ⟨t'', ht1', ht2'⟩ := ingest_no_output_mem client tid fname fsize N c ds none hout
      i (hcov i hi)
    rw [ht1] at ht1'
    cases ht1'
    exact (dmem_iff_mem_dkeys _ i).mp ht2'
  have hsub : Finset.range N ⊆ (dkeys t'.chunks).toFinset := by
    intro x hx
    rw [Finset.mem_range] at hx
    rw [List.mem_toFinset]
    exact hmemall x hx
  have hge : N ≤ t'.chunks.length := by
    have := Finset.card_le_card hsub
    rw [Finset.card_range, List.toFinset_card_of_nodup hgood.1] at this
    simpa [dkeys] using this
  exact Nat.le_antisymm (GoodMap_length_le N c t'.chunks hgood) hge

/-- If a file is written then the delivered indices cover `0..N-1`
(key provenance: every stored key comes from a delivery). -/
theorem ingest_output_coverage (client tid fname : String) (fsize N : Nat)
    (c : Nat → Bytes) (E : Nat → Prop) (ds : List Nat)
    (hds : ∀ i ∈ ds, i < N) (hdsE : ∀ i ∈ ds, E i) :
    ∀ st, GoodState N c fname st →
      (∀ i, dmem (match st with | none => ([] : List (Nat × Bytes)) | some t => t.chunks) i = true → E i) →
      (ingest client st (ds.map (mkChunkMsg tid fname fsize N c))).2 ≠ [] →
      ∀ i < N, E i := by
  induction ds with
  | nil =>
    intro st _ _ hout
    simp [ingest] at hout
  | cons j rest ih =>
    intro st hst hkeys hout
    have hj : j < N := hds j (List.mem_cons_self _ _)
    have hjE : E j := hdsE j (List.mem_cons_self _ _)
    obtain ⟨hchunks, htot, hfn, hgood0⟩ :=
      storeRec_mk client tid fname fsize N c st j hst
    have hkeys' : ∀ i,
        dmem (storeRec client st (mkChunkMsg tid fname fsize N c j)).chunks i = true → E i := by
      intro i hi
      rw [hchunks] at hi
      rcases dmem_dinsert_elim _ _ _ _ hi with h | h
      · subst h; exact hjE
      · apply hkeys i
        cases st with
        | none => simp [initRec] at h; simpa [initRec] using h
        | some t0 => simpa [initRec] using h
    by_cases hlen :
        (storeRec client st (mkChunkMsg tid fname fsize N c j)).chunks.length
          = (mkChunkMsg tid fname fsize N c j).total_chunks
    · -- the transfer completes here: its keys cover 0..N-1 and all satisfy E
      intro i hi
      have hgood : GoodMap N c (storeRec client st (mkChunkMsg tid fname fsize N c j)).chunks := by
        rw [hchunks]
        exact GoodMap_dinsert N c _ j hgood0 hj
      have hfull := GoodMap_full_lookup N c _ hgood hlen i hi
      exact hkeys' i (by simp [dmem, hfull])
    · -- no completion at this step: recurse
      obtain ⟨hst', hout'⟩ := handle_mk_step client tid fname fsize N c st j hj hst
      have h2 : (handle_file_chunk client st (mkChunkMsg tid fname fsize N c j)).2 = none := by
        unfold handle_file_chunk
        rw [if_neg hlen]
      have h1 := handle_no_output client st (mkChunkMsg tid fname fsize N c j) h2
      have hsplit : (ingest client st ((j :: rest).map (mkChunkMsg tid fname fsize N c))).2
          = (handle_file_chunk client st (mkChunkMsg tid fname fsize N c j)).2.toList
            ++ (ingest client (handle_file_chunk client st (mkChunkMsg tid fname fsize N c j)).1
                (rest.map (mkChunkMsg tid fname fsize N c))).2 := by
        simp [ingest]
      rw [hsplit, h2, h1] at hout
      simp only [Option.toList_none, List.nil_append] at hout
      rw [h1] at hst'
      exact ih (fun x hx => hds x (List.mem_cons_of_mem _ hx))
        (fun x hx => hdsE x (List.mem_cons_of_mem _ hx))
        _ hst' (by intro i hi; exact hkeys' i hi) hout

/-- Chunk count of the state of the modelled transfer entry. -/
def stCount : Option TransferRec → Nat
  | none => 0
  | some t => t.chunks.length

theorem dinsert_length_le {κ α : Type} [DecidableEq κ]
    (m : List (κ × α)) (k : κ) (v : α) : (dinsert m k v).length ≤ m.length + 1 := by
  cases h : dmem m k with
  | true => rw [length_dinsert_mem m k v h]; omega
  | false => rw [length_dinsert_new m k v h]

/-- Each completed transfer consumes at least `N` chunk messages: writing `o`
files out of `msgs` messages requires `o * N ≤ |msgs| + (chunks already
stored)`. -/
theorem ingest_output_bound (client : String) (N : Nat) (msgs : List ChunkMsg)
    (hN : ∀ m ∈ msgs, m.total_chunks = N) :
    ∀ st, (ingest client st msgs).2.length * N ≤ msgs.length + stCount st := by
  induction msgs with
  | nil => intro st; simp [ingest]
  | cons msg rest ih =>
    intro st
    have hmsg : msg.total_chunks = N := hN msg (List.mem_cons_self _ _)
    have hrest : ∀ m ∈ rest, m.total_chunks = N :=
      fun m hm => hN m (List.mem_cons_of_mem _ hm)
    have hstore : (storeRec client st msg).chunks.length ≤ stCount st + 1 := by
      cases st with
      | none =>
        have : (storeRec client none msg).chunks = dinsert [] msg.chunk_index msg.chunk_data := rfl
        rw [this]
        simpa [stCount] using dinsert_length_le ([] : List (Nat × Bytes)) msg.chunk_index msg.chunk_data
      | some t =>
        have : (storeRec client (some t) msg).chunks
            = dinsert t.chunks msg.chunk_index msg.chunk_data := rfl
        rw [this]
        simpa [stCount] using dinsert_length_le t.chunks msg.chunk_index msg.chunk_data
    unfold ingest handle_file_chunk
    by_cases hlen : (storeRec client st msg).chunks.length = msg.total_chunks
    · rw [if_pos hlen]
      have hNle : N ≤ stCount st + 1 := by rw [← hmsg, ← hlen]; exact hstore
      have := ih hrest none
      simp only [stCount] at this
      simp only [List.length_cons, Option.toList_some, List.singleton_append,
        List.length_cons]
      calc ((ingest client none rest).2.length + 1) * N
          = (ingest client none rest).2.length * N + N := by ring
        _ ≤ (rest.length + 0) + (stCount st + 1) := Nat.add_le_add this hNle
        _ = rest.length + 1 + stCount st := by omega
    · rw [if_neg hlen]
      have := ih hrest (some (storeRec client st msg))
      simp only [stCount] at this
      simp only [List.length_cons, Option.toList_none, List.nil_append]
      calc (ingest client (some (storeRec client st msg)) rest).2.length * N
          ≤ rest.length + (storeRec client st msg).chunks.length := this
        _ ≤ rest.length + (stCount st + 1) := Nat.add_le_add_left hstore _
        _ = rest.length + 1 + stCount st := by omega

/-- Delivering the indices `0, 1, ..., N-1` once each in ascending order
writes exactly the ascending-order file, once. -/
theorem ingest_ascending (client tid fname : String) (fsize N : Nat)
    (c : Nat → Bytes) (hN : 0 < N) :
    (ingest client none ((List.range N).map (mkChunkMsg tid fname fsize N c))).2
      = [(fname, orderedFile N c)] := by
  have hrange : ∀ i ∈ List.range N, i < N := by
    intro i hi; exact List.mem_range.mp hi
  have hcover : ∀ i < N, i ∈ List.range N := by
    intro i hi; exact List.mem_range.mpr hi
  have hney := ingest_covering_output client tid fname fsize N c (List.range N)
    hrange hcover hN
  obtain ⟨_, hall⟩ := ingest_good client tid fname fsize N c (List.range N) hrange none trivial
  have hbound := ingest_output_bound client N
    ((List.range N).map (mkChunkMsg tid fname fsize N c))
    (by intro m hm
        obtain ⟨i, _, hmi⟩ := List.mem_map.mp hm
        rw [← hmi]
        rfl) none
  simp only [stCount, List.length_map, List.length_range, Nat.add_zero] at hbound
  have hle1 : (ingest client none ((List.range N).map (mkChunkMsg tid fname fsize N c))).2.length ≤ 1 := by
    have h1 : (ingest client none ((List.range N).map (mkChunkMsg tid fname fsize N c))).2.length * N
        ≤ 1 * N := by simpa using hbound
    exact Nat.le_of_mul_le_mul_right h1 hN
  have hge1 : 1 ≤ (ingest client none ((List.range N).map (mkChunkMsg tid fname fsize N c))).2.length := by
    have := List.length_pos.mpr hney
    omega
  have hlen1 : (ingest client none ((List.range N).map (mkChunkMsg tid fname fsize N c))).2.length = 1 := by
    omega
  obtain ⟨a, ha⟩ := List.length_eq_one.mp hlen1
  rw [ha]
  have : a = (fname, orderedFile N c) := hall a (by rw [ha]; exact List.mem_singleton.mpr rfl)
  rw [this]

/-- The record fields are fixed by the message that created the entry; in a
uniform stream every message's `total_chunks` is that same `N`, so any stored
record has `total_chunks = N`. -/
theorem ingest_total_fixed (client : String) (N : Nat) (msgs : List ChunkMsg)
    (hN : ∀ m ∈ msgs, m.total_chunks = N) :
    ∀ st, (∀ t0, st = some t0 → t0.total_chunks = N) →
      ∀ t, (ingest client st msgs).1 = some t → t.total_chunks = N := by
  induction msgs with
  | nil =>
    intro st hst t ht
    simp only [ingest] at ht
    exact hst t ht
  | cons msg rest ih =>
    intro st hst t ht
    have hmsg : msg.total_chunks = N := hN msg (List.mem_cons_self _ _)
    have hrest : ∀ m ∈ rest, m.total_chunks = N :=
      fun m hm => hN m (List.mem_cons_of_mem _ hm)
    have hstoretot : (storeRec client st msg).total_chunks = N := by
      cases st with
      | none => exact hmsg
      | some t0 => exact hst t0 rfl
    have hsplit : (ingest client st (msg :: rest)).1
        = (ingest client (handle_file_chunk client st msg).1 rest).1 := by
      simp [ingest]
    rw [hsplit] at ht
    unfold handle_file_chunk at ht
    by_cases hlen : (storeRec client st msg).chunks.length = msg.total_chunks
    · rw [if_pos hlen] at ht
      exact ih hrest none (by intro t0 h0; cases h0) t ht
    · rw [if_neg hlen] at ht
      exact ih hrest (some (storeRec client st msg))
        (by intro t0 h0; cases h0; exact hstoretot) t ht

/-! ### Claim theorems: reassembly (C1, C4, C9) -/

/-- C1: for a receiving Transfer with `totalChunks = N`, the assembled file is
a pure function of the final chunk map concatenated in ascending index order:
delivering the N chunks (indices `0..N-1`) in any order of arrival, re-delivery
of already-stored indices included, writes at least one file, every file
written is the ascending-index concatenation of the chunks, and it is
byte-identical to the file written when the chunks are delivered once each in
ascending order. -/
theorem chunk_delivery_order_invariant
    (N fsize : Nat) (c : Nat → Bytes) (tid fname client : String)
    (ds : List Nat) (hrange : ∀ i ∈ ds, i < N) (hcover : ∀ i < N, i ∈ ds)
    (hN : 0 < N) :
    (ingest client none (ds.map (mkChunkMsg tid fname fsize N c))).2 ≠ [] ∧
    (∀ o ∈ (ingest client none (ds.map (mkChunkMsg tid fname fsize N c))).2,
      o = (fname, orderedFile N c)) ∧
    (ingest client none ((List.range N).map (mkChunkMsg tid fname fsize N c))).2
      = [(fname, orderedFile N c)] := by
  refine ⟨ingest_covering_output client tid fname fsize N c ds hrange hcover hN,
    ?_, ingest_ascending client tid fname fsize N c hN⟩
  exact (ingest_good client tid fname fsize N c ds hrange none trivial).2

/-- Witness for C1 at a concrete input: two chunks delivered in descending
order with a re-delivery, compared with the ascending delivery. -/
theorem chunk_delivery_order_invariant_witness :
    (∀ i ∈ [1, 0, 0], i < 2) ∧ (∀ i < 2, i ∈ [1, 0, 0]) ∧ 0 < 2 ∧
    ((ingest "ip" none ([1, 0, 0].map (mkChunkMsg "t" "f" 9 2 (fun i => [i])))).2 ≠ [] ∧
     (∀ o ∈ (ingest "ip" none ([1, 0, 0].map (mkChunkMsg "t" "f" 9 2 (fun i => [i])))).2,
        o = ("f", orderedFile 2 (fun i => [i]))) ∧
     (ingest "ip" none ((List.range 2).map (mkChunkMsg "t" "f" 9 2 (fun i => [i])))).2
        = [("f", orderedFile 2 (fun i => [i]))]) :=
  ⟨by decide, by decide, by decide,
   chunk_delivery_order_invariant 2 9 (fun i => [i]) "t" "f" "ip" [1, 0, 0]
     (by decide) (by decide) (by decide)⟩

/-- C4 counterexample: with `totalChunks = 2`, delivering chunk indices 0 and 5
leaves index 1 missing from the chunk map (a gap), yet assembly triggers (the
stored chunk count reaches `total_chunks`) and writes a file containing only
chunk 0. -/
theorem assembly_gap_cex :
    (1 ∉ ([0, 5] : List Nat)) ∧
    (ingest "1.2.3.4" none
        [{ transfer_id := "t1", chunk_data := [7], chunk_index := 0,
           total_chunks := 2, file_size := 3, filename := "f.bin" },
         { transfer_id := "t1", chunk_data := [9], chunk_index := 5,
           total_chunks := 2, file_size := 3, filename := "f.bin" }]).2
      = [("f.bin", [7])] :=
  ⟨by decide, by rfl⟩

/-- C4 (amended): provided every delivered chunk index is in range
`0..totalChunks-1`, a receiving Transfer completes — and assembly triggers —
exactly when the stored chunk indices cover `0..totalChunks-1` (equivalently,
when the stored count equals `totalChunks`); a gap prevents triggering, and
assembly writes the chunks in ascending index order regardless of arrival
order.  (Out-of-range indices can make the count reach `totalChunks` with a
gap, as `assembly_gap_cex` shows.) -/
theorem assembly_trigger_iff_coverage
    (N fsize : Nat) (c : Nat → Bytes) (tid fname client : String)
    (ds : List Nat) (hrange : ∀ i ∈ ds, i < N) (hN : 0 < N) :
    ((ingest client none (ds.map (mkChunkMsg tid fname fsize N c))).2 ≠ []
        ↔ ∀ i < N, i ∈ ds) ∧
    ∀ o ∈ (ingest client none (ds.map (mkChunkMsg tid fname fsize N c))).2,
      o = (fname, orderedFile N c) := by
  constructor
  · constructor
    · intro hout
      exact ingest_output_coverage client tid fname fsize N c (fun i => i ∈ ds) ds
        hrange (fun i hi => hi) none trivial (by intro i hi; simp [dmem, dlookup] at hi) hout
    · intro hcov
      exact ingest_covering_output client tid fname fsize N c ds hrange hcov hN
  · exact (ingest_good client tid fname fsize N c ds hrange none trivial).2

/-- Witness for C4 (amended) at a concrete input: an in-range delivery with a
gap (index 1 missing, `N = 2`) triggers no assembly. -/
theorem assembly_trigger_iff_coverage_witness :
    (∀ i ∈ [0, 0], i < 2) ∧ 0 < 2 ∧
    (((ingest "ip" none ([0, 0].map (mkChunkMsg "t" "f" 9 2 (fun i => [i])))).2 ≠ []
        ↔ ∀ i < 2, i ∈ [0, 0]) ∧
     ∀ o ∈ (ingest "ip" none ([0, 0].map (mkChunkMsg "t" "f" 9 2 (fun i => [i])))).2,
        o = ("f", orderedFile 2 (fun i => [i]))) :=
  ⟨by decide, by decide,
   assembly_trigger_iff_coverage 2 9 (fun i => [i]) "t" "f" "ip" [0, 0]
     (by decide) (by decide)⟩

/-- C9: the assembly trigger compares the stored chunk count against the
`total_chunks` field of the most recently ingested chunk, while the record's
own `total_chunks` is fixed by the first chunk of the transfer.  For uniform
streams (every message carrying `total_chunks = N`) any live record has
`total_chunks = N`, so the two comparisons coincide; a later message carrying
a different `total_chunks` changes whether assembly triggers: the same two
in-range chunks trigger assembly when the second message repeats
`total_chunks = 2` but not when it carries `total_chunks = 3`, even though the
record still holds `total_chunks = 2` from the first chunk. -/
theorem trigger_compares_message_total
    (N fsize : Nat) (c : Nat → Bytes) (tid fname client : String) (ds : List Nat) :
    (∀ t, (ingest client none (ds.map (mkChunkMsg tid fname fsize N c))).1 = some t →
        t.total_chunks = N) ∧
    (ingest "ip" none
        [{ transfer_id := "t", chunk_data := [1], chunk_index := 0,
           total_chunks := 2, file_size := 9, filename := "f" },
         { transfer_id := "t", chunk_data := [2], chunk_index := 1,
           total_chunks := 2, file_size := 9, filename := "f" }]).2 = [("f", [1, 2])] ∧
    (ingest "ip" none
        [{ transfer_id := "t", chunk_data := [1], chunk_index := 0,
           total_chunks := 2, file_size := 9, filename := "f" },
         { transfer_id := "t", chunk_data := [2], chunk_index := 1,
           total_chunks := 3, file_size := 9, filename := "f" }]).2 = [] ∧
    (ingest "ip" none
        [{ transfer_id := "t", chunk_data := [1], chunk_index := 0,
           total_chunks := 2, file_size := 9, filename := "f" },
         { transfer_id := "t", chunk_data := [2], chunk_index := 1,
           total_chunks := 3, file_size := 9, filename := "f" }]).1
      = some { filename := "f", sender_ip := "ip", chunks := [(0, [1]), (1, [2])],
               total_chunks := 2, file_size := 9 } := by
  refine ⟨?_, by rfl, by rfl, by rfl⟩
  intro t ht
  exact ingest_total_fixed client N (ds.map (mkChunkMsg tid fname fsize N c))
    (by intro m hm
        obtain ⟨i, _, hmi⟩ := List.mem_map.mp hm
        rw [← hmi]
        rfl)
    none (by intro t0 h0; cases h0) t ht

/-! ### Session read loops (C5)
Server side: `WebSocketServer.handle_client` (communication.py lines 129-149).
Initiator side: `MainWindow.listen_to_peer` (src/main.py lines 283-361). -/

/-- A parsed JSON envelope as dispatched by the read loops: `chunk m` stands
for an object with `type == 'file_chunk'` and the chunk fields, `plain t c`
for any other well-formed object with `type` and `content` fields. -/
inductive Envelope
  | plain (t c : String)
  | chunk (m : ChunkMsg)
deriving DecidableEq

/-- A raw frame received on a session: either bytes that parse as JSON, or
bytes on which `json.loads` raises `JSONDecodeError`. -/
inductive WireMsg
  | valid (e : Envelope)
  | invalid
deriving DecidableEq

/-- How a read loop ends on a finite inbound stream: the stream was consumed
(connection closed), or an uncaught exception terminated the loop early. -/
inductive ExitStatus
  | streamEnd
  | exception
deriving DecidableEq

/-- The server's per-connection read loop `handle_client`: `json.loads` is
called inside `async for` with only `websockets.exceptions.ConnectionClosed`
handled (line 145), so a JSON decode error propagates, ends the loop and
drops the remaining frames.  Returns the `message_received` emissions, the
final transfer entry and how the loop ended. -/
def handle_client (client_ip : String) (st : Option TransferRec) :
    List WireMsg → List (String × String × String) × Option TransferRec × ExitStatus
  | [] => ([], st, ExitStatus.streamEnd)
  | WireMsg.invalid :: _ => ([], st, ExitStatus.exception)
  | WireMsg.valid (Envelope.chunk m) :: rest =>
    let r := handle_file_chunk client_ip st m
    let evs : List (String × String × String) :=
      match r.2 with
      | some (fn, _) => [(client_ip, "file_completed", fn)]
      | none => []
    let r2 := handle_client client_ip r.1 rest
    (evs ++ r2.1, r2.2)
  | WireMsg.valid (Envelope.plain t c) :: rest =>
    let r2 := handle_client client_ip st rest
    ((client_ip, t, c) :: r2.1, r2.2)

/-- UI dispatch of one parsed message in `listen_to_peer` (main.py lines
295-346): the chat messages added, as `(kind, text)` pairs.  A message whose
type matches no branch (including `file_chunk`) is silently ignored. -/
def dispatch_message (data : Envelope) : List (String × String) :=
  match data with
  | Envelope.plain t c =>
    if t = "text" then [("text", c)]
    else if t = "file" then [("file", c)]
    else if t = "image" then [("image", c)]
    else if t = "file_completed" then [("file", "File received: " ++ c)]
    else if t = "file_error" then [("text", "File transfer error: " ++ c)]
    else []
  | Envelope.chunk _ => []

/-- The initiator's read loop `listen_to_peer`: the inner try/except catches
`json.JSONDecodeError` (main.py line 348) and any other per-message error
(line 350), logs it and drops the frame, and the loop continues. -/
def listen_to_peer : List WireMsg → List (String × String) × ExitStatus
  | [] => ([], ExitStatus.streamEnd)
  | WireMsg.invalid :: rest => listen_to_peer rest
  | WireMsg.valid e :: rest =>
    let r2 := listen_to_peer rest
    (dispatch_message e ++ r2.1, r2.2)

/-- C5 counterexample: an invalid-JSON frame terminates the server's
accept-side read loop with an uncaught exception, dropping the following text
message — while the initiator's loop drops the bad frame and processes the
rest.  The claim that BOTH loops drop invalid JSON and never terminate is
therefore false on the server side. -/
theorem server_decode_error_terminates_cex :
    handle_client "1.1.1.1" none
        [WireMsg.invalid, WireMsg.valid (Envelope.plain "text" "hi")]
      = ([], none, ExitStatus.exception) ∧
    listen_to_peer [WireMsg.invalid, WireMsg.valid (Envelope.plain "text" "hi")]
      = ([("text", "hi")], ExitStatus.streamEnd) :=
  ⟨rfl, rfl⟩

/-- C5 (amended): in the initiator's `listen_to_peer` loop an invalid-JSON
frame is logged and dropped and the loop always runs the stream to its end;
the server's `handle_client` loop, however, only finishes the stream when no
invalid frame occurs — the first invalid frame stops it with an uncaught
exception, preserving the events emitted before that frame and dropping the
rest. -/
theorem decode_error_loop_behaviour (msgs : List WireMsg) (client : String)
    (st : Option TransferRec) :
    ((listen_to_peer msgs).2 = ExitStatus.streamEnd) ∧
    (WireMsg.invalid ∉ msgs →
      (handle_client client st msgs).2.2 = ExitStatus.streamEnd) ∧
    (∀ pre post, WireMsg.invalid ∉ pre →
      handle_client client st (pre ++ WireMsg.invalid :: post)
        = ((handle_client client st pre).1, (handle_client client st pre).2.1,
           ExitStatus.exception)) := by
  refine ⟨?_, ?_, ?_⟩
  · induction msgs with
    | nil => rfl
    | cons w rest ih =>
      cases w with
      | invalid => simpa [listen_to_peer] using ih
      | valid e => simpa [listen_to_peer] using ih
  · induction msgs generalizing st with
    | nil => intro _; rfl
    | cons w rest ih =>
      intro hni
      cases w with
      | invalid => exact absurd (List.mem_cons_self _ _) hni
      | valid e =>
        have hni' : WireMsg.invalid ∉ rest :=
          fun h => hni (List.mem_cons_of_mem _ h)
        cases e with
        | plain t c => simpa [handle_client] using ih st hni'
        | chunk m => simpa [handle_client] using ih _ hni'
  · intro pre post
    induction pre generalizing st with
    | nil => intro _; rfl
    | cons w pre ih =>
      intro hni
      cases w with
      | invalid => exact absurd (List.mem_cons_self _ _) hni
      | valid e =>
        have hni' : WireMsg.invalid ∉ pre :=
          fun h => hni (List.mem_cons_of_mem _ h)
        cases e with
        | plain t c =>
          simp [handle_client, ih st hni']
        | chunk m =>
          simp [handle_client, ih ((handle_file_chunk client st m).1) hni']

/-- Witness for C5 (amended) at a concrete input. -/
theorem decode_error_loop_behaviour_witness :
    (WireMsg.invalid ∉ [WireMsg.valid (Envelope.plain "text" "a")]) ∧
    (listen_to_peer [WireMsg.valid (Envelope.plain "text" "a")]).2
      = ExitStatus.streamEnd ∧
    (handle_client "ip" none [WireMsg.valid (Envelope.plain "text" "a")]).2.2
      = ExitStatus.streamEnd ∧
    handle_client "ip" none
        ([WireMsg.valid (Envelope.plain "text" "a")]
          ++ WireMsg.invalid :: [WireMsg.valid (Envelope.plain "text" "b")])
      = ((handle_client "ip" none [WireMsg.valid (Envelope.plain "text" "a")]).1,
         (handle_client "ip" none [WireMsg.valid (Envelope.plain "text" "a")]).2.1,
         ExitStatus.exception) :=
  ⟨by decide,
   (decode_error_loop_behaviour [WireMsg.valid (Envelope.plain "text" "a")] "ip" none).1,
   (decode_error_loop_behaviour [WireMsg.valid (Envelope.plain "text" "a")] "ip" none).2.1
     (by decide),
   (decode_error_loop_behaviour [WireMsg.valid (Envelope.plain "text" "a")] "ip" none).2.2
     [WireMsg.valid (Envelope.plain "text" "a")]
     [WireMsg.valid (Envelope.plain "text" "b")] (by decide)⟩

/-! ### Sending side: FileTransfer.run (src/network/file_transfer.py)
The worker reads the file in 8 KiB chunks and sends one `file_chunk` envelope
per chunk; `pause`/`resume`/`cancel` are cooperative flags checked between
chunks.  The `progress_updated` signal (a GUI progress string computed with
float division) is not part of the modelled trace; the chunk envelopes and
the terminal `transfer_completed` signal are. -/

/-- The `self.cancelled` flag as observed at successive chunk boundaries:
`cancelPoint = some k` means the flag reads true from the k-th boundary check
on (the flag is monotone — once set by `cancel_transfer` it stays set);
`none` means cancel is never called. -/
def cancelledAt (cancelPoint : Option Nat) (i : Nat) : Bool :=
  match cancelPoint with
  | none => false
  | some k => decide (k ≤ i)

/-- The send loop of `FileTransfer.run` (file_transfer.py lines 42-79), with
`iter` counting chunk boundaries and `remaining` the unread file tail.  Each
iteration re-checks `bytes_sent < file_size and not cancelled` (the body's
`if self.cancelled: break` reads the same monotone flag at the same
boundary), reads `min(self.chunk_size, file_size - bytes_sent)` bytes
(`chunk_size = 8192`), breaks on an empty read (`if not chunk`), and
otherwise sends one `file_chunk` envelope with
`chunk_index = bytes_sent // 8192` and
`total_chunks = (file_size + 8192 - 1) // 8192`.  Returns the chunks sent and
the boundary index at loop exit — the moment the final
`if not self.cancelled` check reads the flag. -/
def runLoop (cancelPoint : Option Nat) (fileSize : Nat) (tid fname : String)
    (remaining : Bytes) (bytesSent iter : Nat) : List ChunkMsg × Nat :=
  if h : bytesSent < fileSize ∧ cancelledAt cancelPoint iter = false then
    let chunk := remaining.take (min 8192 (fileSize - bytesSent))
    if hc : chunk.isEmpty then ([], iter)
    else
      let r := runLoop cancelPoint fileSize tid fname
        (remaining.drop (min 8192 (fileSize - bytesSent)))
        (bytesSent + chunk.length) (iter + 1)
      ({ transfer_id := tid, chunk_data := chunk,
         chunk_index := bytesSent / 8192,
         total_chunks := (fileSize + 8192 - 1) / 8192,
         file_size := fileSize, filename := fname } :: r.1, r.2)
  else ([], iter)
termination_by fileSize - bytesSent
decreasing_by
  simp_wf
  have hlen : (List.take (8192 ⊓ (fileSize - bytesSent)) remaining).length ≠ 0 := by
    intro hh
    apply hc
    rw [List.isEmpty_iff_length_eq_zero]
    exact hh
  rw [List.length_take] at hlen
  omega

/-- Outcome of one run of the sending worker: the `file_chunk` envelopes sent
and the `transfer_completed` emissions `(success, message)`. -/
structure RunResult where
  sent : List ChunkMsg
  terminal : List (Bool × String)
deriving DecidableEq

/-- `FileTransfer.run` on a file whose bytes are `content` (so
`self.file_size = content.length`, set in `__init__` from
`os.path.getsize`): runs the send loop from `bytes_sent = 0`, then emits
exactly one terminal signal — `(True, "Transfer completed successfully")` if
the cancelled flag is unset at the final check, `(False, "Transfer
cancelled")` otherwise (lines 81-84). -/
def FileTransfer_run (cancelPoint : Option Nat) (content : Bytes)
    (tid fname : String) : RunResult :=
  let r := runLoop cancelPoint content.length tid fname content 0 0
  if cancelledAt cancelPoint r.2 = false then
    { sent := r.1, terminal := [(true, "Transfer completed successfully")] }
  else
    { sent := r.1, terminal := [(false, "Transfer cancelled")] }

/-- `total_chunks` as computed by the sender (file_transfer.py line 63). -/
def totalChunks (fileSize : Nat) : Nat := (fileSize + 8192 - 1) / 8192

/-- The chunk boundary at which the send loop exits: the earliest of the
cancel boundary and the natural end of the file. -/
def stopAt (cancelPoint : Option Nat) (fileSize : Nat) : Nat :=
  match cancelPoint with
  | none => totalChunks fileSize
  | some k => min k (totalChunks fileSize)

/-- The chunk envelope the sender emits at boundary `j`. -/
def sentMsg (content : Bytes) (tid fname : String) (j : Nat) : ChunkMsg :=
  { transfer_id := tid,
    chunk_data := (content.drop (8192 * j)).take (min 8192 (content.length - 8192 * j)),
    chunk_index := j, total_chunks := totalChunks content.length,
    file_size := content.length, filename := fname }

theorem lt_totalChunks_iff (S i : Nat) : 8192 * i < S ↔ i < totalChunks S := by
  unfold totalChunks
  omega

/-- Full characterisation of the send loop from any boundary `i`. -/
theorem runLoop_spec (cancelPoint : Option Nat) (content : Bytes) (tid fname : String) :
    ∀ d i, stopAt cancelPoint content.length - i = d →
      runLoop cancelPoint content.length tid fname
        (content.drop (min (8192 * i) content.length)) (min (8192 * i) content.length) i
      = ((List.range' i (stopAt cancelPoint content.length - i)).map (sentMsg content tid fname),
         max i (stopAt cancelPoint content.length)) := by
  intro d
  induction d with
  | zero =>
    intro i hi
    have hstop : stopAt cancelPoint content.length ≤ i := by omega
    have hguard : ¬ (min (8192 * i) content.length < content.length ∧
        cancelledAt cancelPoint i = false) := by
      cases cancelPoint with
      | none =>
        simp only [stopAt] at hstop
        have hge : content.length ≤ 8192 * i := by
          by_contra hlt
          push_neg at hlt
          exact absurd ((lt_totalChunks_iff content.length i).mp hlt) (by omega)
        intro hand
        omega
      | some k =>
        simp only [stopAt] at hstop
        rcases min_le_iff.mp hstop with hk | ht
        · intro hand
          have : cancelledAt (some k) i = true := by
            simp [cancelledAt, hk]
          rw [hand.2] at this
          exact Bool.false_ne_true this
        · have hge : content.length ≤ 8192 * i := by
            by_contra hlt
            push_neg at hlt
            exact absurd ((lt_totalChunks_iff content.length i).mp hlt) (by omega)
          intro hand
          omega
    rw [runLoop, dif_neg hguard, hi]
    simp [Nat.max_eq_left hstop]
  | succ d ih =>
    intro i hi
    have hilt : i < stopAt cancelPoint content.length := by omega
    have hitot : i < totalChunks content.length := by
      cases cancelPoint with
      | none => simpa [stopAt] using hilt
      | some k =>
        simp only [stopAt] at hilt
        omega
    have hSlt : 8192 * i < content.length := (lt_totalChunks_iff _ _).mpr hitot
    have hmin : min (8192 * i) content.length = 8192 * i :=
      Nat.min_eq_left (le_of_lt hSlt)
    have hcanc : cancelledAt cancelPoint i = false := by
      cases cancelPoint with
      | none => rfl
      | some k =>
        simp only [stopAt] at hilt
        have hik : i < k := by omega
        simp [cancelledAt, Nat.not_le.mpr hik]
    have hchunklen : ((content.drop (8192 * i)).take
        (min 8192 (content.length - 8192 * i))).length
        = min 8192 (content.length - 8192 * i) := by
      rw [List.length_take, List.length_drop]
      omega
    have hcne : ¬ (((content.drop (8192 * i)).take
        (min 8192 (content.length - 8192 * i))).isEmpty = true) := by
      rw [List.isEmpty_iff_length_eq_zero, hchunklen]
      omega
    have hnext : 8192 * i + min 8192 (content.length - 8192 * i)
        = min (8192 * (i + 1)) content.length := by
      omega
    rw [hmin, runLoop, dif_pos ⟨hSlt, hcanc⟩, dif_neg hcne]
    have harg1 : (content.drop (8192 * i)).drop (min 8192 (content.length - 8192 * i))
        = content.drop (min (8192 * (i + 1)) content.length) := by
      rw [List.drop_drop, hnext]
    have harg2 : 8192 * i + ((content.drop (8192 * i)).take
        (min 8192 (content.length - 8192 * i))).length
        = min (8192 * (i + 1)) content.length := by
      rw [hchunklen]
      omega
    rw [harg1, harg2, ih (i + 1) (by omega)]
    have hrng : List.range' i (stopAt cancelPoint content.length - i)
        = i :: List.range' (i + 1) (stopAt cancelPoint content.length - (i + 1)) := by
      have hd : stopAt cancelPoint content.length - (i + 1) = d := by omega
      rw [hi, hd]
      exact List.range'_succ i d 1
    rw [hrng]
    have hmax1 : max (i + 1) (stopAt cancelPoint content.length)
        = stopAt cancelPoint content.length := Nat.max_eq_right hilt
    have hmax2 : max i (stopAt cancelPoint content.length)
        = stopAt cancelPoint content.length := Nat.max_eq_right (le_of_lt hilt)
    rw [hmax1, hmax2]
    simp only [List.map_cons]
    congr 1
    congr 1
    unfold sentMsg totalChunks
    congr 1
    exact Nat.mul_div_cancel_left i (by norm_num)

theorem runLoop_from_zero (cancelPoint : Option Nat) (content : Bytes)
    (tid fname : String) :
    runLoop cancelPoint content.length tid fname content 0 0
      = ((List.range' 0 (stopAt cancelPoint content.length)).map (sentMsg content tid fname),
         stopAt cancelPoint content.length) := by
  have h := runLoop_spec cancelPoint content tid fname
    (stopAt cancelPoint content.length - 0) 0 rfl
  simpa using h

/-- A run without cancellation sends the chunk at every boundary
`0..totalChunks-1` and reports success. -/
theorem FileTransfer_run_none (content : Bytes) (tid fname : String) :
    FileTransfer_run none content tid fname
      = { sent := (List.range (totalChunks content.length)).map (sentMsg content tid fname),
          terminal := [(true, "Transfer completed successfully")] } := by
  simp only [FileTransfer_run]
  rw [runLoop_from_zero]
  simp [cancelledAt, stopAt, List.range_eq_range']

/-- A run whose cancel flag turns on at boundary `k` sends exactly the chunks
before `min k totalChunks` and reports failure iff the flag was on at the
final check (`k ≤ totalChunks`). -/
theorem FileTransfer_run_cancel (content : Bytes) (tid fname : String) (k : Nat) :
    FileTransfer_run (some k) content tid fname
      = { sent := (List.range' 0 (min k (totalChunks content.length))).map
            (sentMsg content tid fname),
          terminal := if k ≤ totalChunks content.length
            then [(false, "Transfer cancelled")]
            else [(true, "Transfer completed successfully")] } := by
  simp only [FileTransfer_run]
  rw [runLoop_from_zero]
  by_cases hk : k ≤ totalChunks content.length
  · have hc : cancelledAt (some k) (stopAt (some k) content.length) = true := by
      simp only [cancelledAt, stopAt]
      have : k ≤ min k (totalChunks content.length) := by omega
      simpa using this
    rw [hc]
    simp [stopAt, hk]
  · have hc : cancelledAt (some k) (stopAt (some k) content.length) = false := by
      simp only [cancelledAt, stopAt]
      have : ¬ (k ≤ min k (totalChunks content.length)) := by omega
      simpa using this
    rw [hc]
    simp [stopAt, hk]

/-- C6: after `cancel()` is observed at chunk boundary `k` of an in-progress
send, no `file_chunk` envelope with index `≥ k` is transmitted (the sent
chunks are exactly those before boundary `min k totalChunks`), and the worker
emits exactly one terminal event, with `success = false` whenever the flag was
set at or before the final check (`k ≤ totalChunks`). -/
theorem cancel_stops_transfer (content : Bytes) (tid fname : String) (k : Nat) :
    (FileTransfer_run (some k) content tid fname).terminal.length = 1 ∧
    (FileTransfer_run (some k) content tid fname).sent.length
        = min k (totalChunks content.length) ∧
    (∀ m ∈ (FileTransfer_run (some k) content tid fname).sent, m.chunk_index < k) ∧
    (k ≤ totalChunks content.length →
      (FileTransfer_run (some k) content tid fname).terminal
        = [(false, "Transfer cancelled")]) := by
  rw [FileTransfer_run_cancel]
  refine ⟨?_, ?_, ?_, ?_⟩
  · by_cases hk : k ≤ totalChunks content.length <;> simp [hk]
  · simp
  · intro m hm
    simp only [List.mem_map] at hm
    obtain ⟨j, hj, hjm⟩ := hm
    have hjlt : j < min k (totalChunks content.length) := by
      have := List.mem_range'_1.mp hj
      omega
    rw [← hjm]
    show j < k
    omega
  · intro hk
    simp [hk]

/-- Witness for C6 at a concrete input: a 2-byte file (1 chunk) cancelled at
boundary 1 reports `(false, "Transfer cancelled")`. -/
theorem cancel_stops_transfer_witness :
    1 ≤ totalChunks ([0, 1] : Bytes).length ∧
    (FileTransfer_run (some 1) [0, 1] "t" "f").terminal
      = [(false, "Transfer cancelled")] :=
  ⟨by decide, (cancel_stops_transfer [0, 1] "t" "f" 1).2.2.2 (by decide)⟩

/-- Ascending-order reconstruction: the 8 KiB slices of the file, in index
order, flatten back to the file. -/
theorem chunks_flatten (content : Bytes) :
    ∀ d i, totalChunks content.length - i = d →
      ((List.range' i (totalChunks content.length - i)).map
          (fun j => (content.drop (8192 * j)).take (min 8192 (content.length - 8192 * j)))).flatten
        = content.drop (8192 * i) := by
  intro d
  induction d with
  | zero =>
    intro i hi
    rw [hi]
    have hge : content.length ≤ 8192 * i := by
      by_contra hlt
      push_neg at hlt
      exact absurd ((lt_totalChunks_iff content.length i).mp hlt) (by omega)
    simp [List.drop_eq_nil_of_le hge]
  | succ d ih =>
    intro i hi
    have hitot : i < totalChunks content.length := by omega
    have hSlt : 8192 * i < content.length := (lt_totalChunks_iff _ _).mpr hitot
    have hrng : List.range' i (totalChunks content.length - i)
        = i :: List.range' (i + 1) (totalChunks content.length - (i + 1)) := by
      have hd : totalChunks content.length - (i + 1) = d := by omega
      rw [hi, hd]
      exact List.range'_succ i d 1
    rw [hrng]
    simp only [List.map_cons, List.flatten_cons]
    rw [ih (i + 1) (by omega)]
    by_cases hnl : 8192 * (i + 1) ≤ content.length
    · have hn : min 8192 (content.length - 8192 * i) = 8192 := by omega
      rw [hn]
      have hdd : content.drop (8192 * (i + 1)) = (content.drop (8192 * i)).drop 8192 := by
        rw [List.drop_drop, Nat.mul_succ]
      rw [hdd, List.take_append_drop]
    · have hd1 : content.drop (8192 * (i + 1)) = [] :=
        List.drop_eq_nil_of_le (by omega)
      have hn : min 8192 (content.length - 8192 * i) = content.length - 8192 * i := by
        omega
      rw [hd1, hn, List.append_nil]
      apply List.take_of_length_le
      rw [List.length_drop]

/-- C7: for a file of `S > 0` bytes the sender emits `file_chunk` envelopes
with zero-based indices in strictly ascending order `0..totalChunks-1`, each
carrying `total_chunks = ceil(S / 8192)`; the payloads are the consecutive
8 KiB slices (so they flatten back to the file and their lengths sum to `S`),
and a 20000-byte file yields `totalChunks = 3` with payload sizes
8192, 8192, 3616. -/
theorem send_chunking (content : Bytes) (tid fname : String)
    (_hpos : 0 < content.length) :
    ((FileTransfer_run none content tid fname).sent.map (fun m => m.chunk_index))
        = List.range (totalChunks content.length) ∧
    (∀ m ∈ (FileTransfer_run none content tid fname).sent,
        m.total_chunks = totalChunks content.length) ∧
    ((FileTransfer_run none content tid fname).sent.map (fun m => m.chunk_data)).flatten
        = content ∧
    ((FileTransfer_run none content tid fname).sent.map (fun m => m.chunk_data.length))
        = (List.range (totalChunks content.length)).map
            (fun j => min 8192 (content.length - 8192 * j)) ∧
    ((FileTransfer_run none content tid fname).sent.map
        (fun m => m.chunk_data.length)).sum = content.length ∧
    (content.length = 20000 →
      totalChunks content.length = 3 ∧
      ((FileTransfer_run none content tid fname).sent.map (fun m => m.chunk_data.length))
        = [8192, 8192, 3616]) := by
  rw [FileTransfer_run_none]
  have hflat : ((List.range (totalChunks content.length)).map
      (fun j => (content.drop (8192 * j)).take (min 8192 (content.length - 8192 * j)))).flatten
      = content := by
    have h0 := chunks_flatten content (totalChunks content.length) 0 (by omega)
    simpa [List.range_eq_range'] using h0
  have hdata : ((List.range (totalChunks content.length)).map
      (sentMsg content tid fname)).map (fun m => m.chunk_data)
      = (List.range (totalChunks content.length)).map
          (fun j => (content.drop (8192 * j)).take (min 8192 (content.length - 8192 * j))) := by
    rw [List.map_map]
    apply List.map_congr_left
    intro j _
    rfl
  have hlens : ((List.range (totalChunks content.length)).map
      (sentMsg content tid fname)).map (fun m => m.chunk_data.length)
      = (List.range (totalChunks content.length)).map
          (fun j => min 8192 (content.length - 8192 * j)) := by
    rw [List.map_map]
    apply List.map_congr_left
    intro j _
    show ((content.drop (8192 * j)).take (min 8192 (content.length - 8192 * j))).length
      = min 8192 (content.length - 8192 * j)
    rw [List.length_take, List.length_drop]
    omega
  refine ⟨?_, ?_, ?_, hlens, ?_, ?_⟩
  · rw [List.map_map]
    have : ((fun m : ChunkMsg => m.chunk_index) ∘ sentMsg content tid fname)
        = fun j => j := rfl
    rw [this, List.map_id']
  · intro m hm
    obtain ⟨j, _, hjm⟩ := List.mem_map.mp hm
    rw [← hjm]
    rfl
  · rw [hdata, hflat]
  · rw [hlens]
    have h1 : (List.range (totalChunks content.length)).map
        (fun j => min 8192 (content.length - 8192 * j))
        = ((List.range (totalChunks content.length)).map
            (fun j => (content.drop (8192 * j)).take
              (min 8192 (content.length - 8192 * j)))).map List.length := by
      rw [List.map_map]
      apply List.map_congr_left
      intro j _
      show min 8192 (content.length - 8192 * j)
        = ((content.drop (8192 * j)).take (min 8192 (content.length - 8192 * j))).length
      rw [List.length_take, List.length_drop]
      omega
    rw [h1, ← List.length_flatten, hflat]
  · intro h20
    constructor
    · rw [h20]
      rfl
    · rw [hlens, h20]
      decide

/-- Witness for C7 at a concrete input: a 1-byte file. -/
theorem send_chunking_witness :
    0 < ([0] : Bytes).length ∧
    ((((FileTransfer_run none [0] "t" "f").sent.map (fun m => m.chunk_index))
        = List.range (totalChunks ([0] : Bytes).length)) ∧
     (∀ m ∈ (FileTransfer_run none [0] "t" "f").sent,
        m.total_chunks = totalChunks ([0] : Bytes).length) ∧
     (((FileTransfer_run none [0] "t" "f").sent.map (fun m => m.chunk_data)).flatten
        = [0]) ∧
     (((FileTransfer_run none [0] "t" "f").sent.map (fun m => m.chunk_data.length))
        = (List.range (totalChunks ([0] : Bytes).length)).map
            (fun j => min 8192 (([0] : Bytes).length - 8192 * j))) ∧
     (((FileTransfer_run none [0] "t" "f").sent.map
        (fun m => m.chunk_data.length)).sum = ([0] : Bytes).length) ∧
     (([0] : Bytes).length = 20000 →
       totalChunks ([0] : Bytes).length = 3 ∧
       ((FileTransfer_run none [0] "t" "f").sent.map (fun m => m.chunk_data.length))
        = [8192, 8192, 3616])) :=
  ⟨by decide, send_chunking [0] "t" "f" (by decide)⟩

/-- C10: for an existing file of size zero the sending worker transmits no
`file_chunk` envelope at all (`bytes_sent < file_size` fails immediately) and
emits exactly one terminal event with `success = true`; consequently the
receiver, fed no chunk messages, allocates no Transfer record and writes no
file for that transferId. -/
theorem empty_file_send (tid fname client : String) :
    FileTransfer_run none ([] : Bytes) tid fname
      = { sent := [], terminal := [(true, "Transfer completed successfully")] } ∧
    ingest client none ([] : List ChunkMsg) = (none, []) := by
  constructor
  · rw [FileTransfer_run_none]
    have h0 : totalChunks ([] : Bytes).length = 0 := by decide
    rw [h0]
    rfl
  · rfl

/-! ### Synchronous send result (C8) -/

/-- `MainWindow.send_message_to_peer` (src/main.py lines 371-404): when the
peer has no entry in `self.websocket_clients` it logs, updates the status bar
and returns `False`; otherwise it serialises the envelope
(type/content/timestamp/sender), hands it to a daemon sender thread and
returns `True` — errors inside that thread happen after the return.
`clients` is the key set of `websocket_clients`; the second component is the
envelope handed to the sender thread, `none` when nothing was sent. -/
def send_message_to_peer (clients : List String) (peer_ip : String)
    (message_type content sender : String) :
    Bool × Option (String × String × String) :=
  if peer_ip ∉ clients then
    (false, none)
  else
    (true, some (message_type, content, sender))

/-- C8: `send(peerAddress, envelope)` returns its result synchronously —
`False` when no open session exists for the address (and nothing is
enqueued; the Python path returns rather than raising into the caller), and
`True` exactly when a session exists. -/
theorem send_message_result (clients : List String) (peer_ip t c s : String) :
    ((send_message_to_peer clients peer_ip t c s).1 = true ↔ peer_ip ∈ clients) ∧
    (peer_ip ∉ clients →
      send_message_to_peer clients peer_ip t c s = (false, none)) := by
  unfold send_message_to_peer
  by_cases h : peer_ip ∈ clients
  · rw [if_neg (by simpa using h)]
    constructor
    · simpa using h
    · intro hn
      exact absurd h hn
  · rw [if_pos h]
    constructor
    · simpa using h
    · intro _
      rfl

/-- Witness for C8 at a concrete input: sending to an unconnected peer
returns `(false, none)`. -/
theorem send_message_result_witness :
    ("2.2.2.2" ∉ ["1.1.1.1"]) ∧
    send_message_to_peer ["1.1.1.1"] "2.2.2.2" "text" "hi" "me" = (false, none) :=
  ⟨by decide,
   (send_message_result ["1.1.1.1"] "2.2.2.2" "text" "hi" "me").2 (by decide)⟩

/-! ### Claim theorems: discovery (C2, C3) -/

/-- Witness for C3 at a concrete input: a single non-local announcement emits
an event whose uuid differs from the local uuid. -/
theorem listen_for_peers_never_self_witness :
    (("1.1.1.1", "alice", "u1") ∈
      (listen_for_peers "self" []
        [{ src_ip := "1.1.1.1", dtype := "peer_announcement",
           username := "alice", duuid := "u1" }]).2) ∧
    ("1.1.1.1", "alice", "u1").2.2 ≠ "self" :=
  ⟨by decide,
   listen_for_peers_never_self "self" []
     [{ src_ip := "1.1.1.1", dtype := "peer_announcement",
        username := "alice", duuid := "u1" }]
     ("1.1.1.1", "alice", "u1") (by decide)⟩

/-- C2 counterexample: the registry is keyed by source address, not by UUID
(communication.py line 94 tests `ip not in self.discovered_peers`); two
announcements carrying the same non-local UUID from two different source
addresses emit two PeerFound events, not one. -/
theorem discovery_dedup_by_ip_cex :
    "u1" ≠ "self" ∧
    (listen_for_peers "self" []
        [{ src_ip := "1.1.1.1", dtype := "peer_announcement",
           username := "alice", duuid := "u1" },
         { src_ip := "2.2.2.2", dtype := "peer_announcement",
           username := "alice", duuid := "u1" }]).2
      = [("1.1.1.1", "alice", "u1"), ("2.2.2.2", "alice", "u1")] :=
  ⟨by decide, by rfl⟩

/-- C2 (amended): for every sequence of peer_announcement datagrams carrying
the same non-local UUID from the same source address, exactly one PeerFound
event is emitted — on the first datagram, which introduces the address —
and subsequent announcements update the registry entry silently. -/
theorem discovery_single_event_per_address
    (u ip uu : String) (d0 : Datagram) (rest : List Datagram)
    (hd0 : d0.src_ip = ip ∧ d0.dtype = "peer_announcement" ∧ d0.duuid = uu)
    (hrest : ∀ d ∈ rest, d.src_ip = ip ∧ d.dtype = "peer_announcement" ∧ d.duuid = uu)
    (hu : uu ≠ u) :
    (listen_for_peers u [] (d0 :: rest)).2 = [(ip, d0.username, uu)] := by
  obtain ⟨hip, hty, huu⟩ := hd0
  have h2 : d0.duuid ≠ u := by rw [huu]; exact hu
  have hm0 : dmem ([] : List (String × PeerInfo)) d0.src_ip = false := by rfl
  have hstep : listenStep u [] d0
      = (dinsert [] d0.src_ip { username := d0.username, puuid := d0.duuid },
         [(d0.src_ip, d0.username, d0.duuid)]) := by
    unfold listenStep
    rw [if_pos hty, if_pos h2, if_pos hm0]
  have hmem : dmem (listenStep u [] d0).1 ip = true := by
    rw [hstep, ← hip]
    exact dmem_dinsert_self ([] : List (String × PeerInfo)) d0.src_ip
      { username := d0.username, puuid := d0.duuid }
  have hsilent : (listen_for_peers u (listenStep u [] d0).1 rest).2 = [] :=
    listen_known_silent u ip uu rest hrest hu _ hmem
  have hsplit : (listen_for_peers u [] (d0 :: rest)).2
      = (listenStep u [] d0).2 ++ (listen_for_peers u (listenStep u [] d0).1 rest).2 := by
    simp [listen_for_peers]
  rw [hsplit, hsilent, hstep, hip, huu]
  simp

/-- Witness for C2 (amended) at a concrete input: two same-address
announcements of the same uuid emit exactly one PeerFound event. -/
theorem discovery_single_event_per_address_witness :
    ({ src_ip := "1.1.1.1", dtype := "peer_announcement",
       username := "alice", duuid := "u1" : Datagram }.src_ip = "1.1.1.1") ∧
    "u1" ≠ "self" ∧
    (listen_for_peers "self" []
        [{ src_ip := "1.1.1.1", dtype := "peer_announcement",
           username := "alice", duuid := "u1" },
         { src_ip := "1.1.1.1", dtype := "peer_announcement",
           username := "alicia", duuid := "u1" }]).2
      = [("1.1.1.1", "alice", "u1")] :=
  ⟨by decide, by decide,
   discovery_single_event_per_address "self" "1.1.1.1" "u1"
     { src_ip := "1.1.1.1", dtype := "peer_announcement",
       username := "alice", duuid := "u1" }
     [{ src_ip := "1.1.1.1", dtype := "peer_announcement",
        username := "alicia", duuid := "u1" }]
     (by decide) (by decide) (by decide)⟩

/-- Witness for C9 at a concrete input: after one chunk of a 2-chunk uniform
stream, the stored record's `total_chunks` is 2. -/
theorem trigger_compares_message_total_witness :
    ((ingest "ip" none ([0].map (mkChunkMsg "t" "f" 9 2 (fun i => [i])))).1
        = some { filename := "f", sender_ip := "ip", chunks := [(0, [0])],
                 total_chunks := 2, file_size := 9 }) ∧
    ({ filename := "f", sender_ip := "ip", chunks := [(0, [0])],
       total_chunks := 2, file_size := 9 : TransferRec }).total_chunks = 2 :=
  ⟨by rfl,
   (trigger_compares_message_total 2 9 (fun i => [i]) "t" "f" "ip" [0]).1
     _ (by rfl)⟩

end P2P
